import Mathlib

/-
  Verification of the d-tale-utils archive-to-session pipeline
  (src/dtale_utils/dtale_utils.py) against its specification.

  Strings are embedded as lists of characters.  Pure Python functions
  become Lean functions; the filesystem and process state become
  explicit state values.
-/

/-- A Python string, embedded as a list of characters. -/
abbrev Str := List Char

/-- The character class of the regex pattern [^a-zA-Z0-9] negated:
true exactly when the character is in the ranges a-z, A-Z or 0-9. -/
def isAsciiAlphanum (c : Char) : Bool :=
  (decide ('a' ≤ c) && decide (c ≤ 'z')) ||
  (decide ('A' ≤ c) && decide (c ≤ 'Z')) ||
  (decide ('0' ≤ c) && decide (c ≤ '9'))

/-- The action of re.sub with pattern [^a-zA-Z0-9] and replacement
a single space, on one character: a character of the class is kept,
any other character becomes a space. -/
def sanitizeChar (c : Char) : Char :=
  if isAsciiAlphanum c then c else ' '

/-- Embeds replace_non_alphanumeric_with_space (dtale_utils.py lines
110-136): re.sub applied with the single-character class [^a-zA-Z0-9]
rewrites the string character by character. -/
def replace_non_alphanumeric_with_space (s : Str) : Str :=
  s.map sanitizeChar

theorem sanitizeChar_idem (c : Char) :
    sanitizeChar (sanitizeChar c) = sanitizeChar c := by
  unfold sanitizeChar
  by_cases h : isAsciiAlphanum c = true
  · simp [h]
  · simp [h]

/-- C1: for every string s, replace_non_alphanumeric_with_space returns
a string of the same length in which position i holds s[i] when s[i]
is in the ranges a-z, A-Z or 0-9 and a space otherwise; the empty
string maps to the empty string. -/
theorem C1_sanitizer_pointwise (s : Str) :
    (replace_non_alphanumeric_with_space s).length = s.length ∧
    (∀ i : Nat, (replace_non_alphanumeric_with_space s)[i]? =
      (s[i]?).map (fun c => if isAsciiAlphanum c then c else ' ')) ∧
    replace_non_alphanumeric_with_space [] = [] := by
  refine ⟨?_, ?_, rfl⟩
  · simp [replace_non_alphanumeric_with_space]
  · intro i
    simp only [replace_non_alphanumeric_with_space, List.getElem?_map]
    rfl

/-- C9: the sanitizer is idempotent: applying it twice yields the same
result as applying it once. -/
theorem C9_sanitizer_idempotent (s : Str) :
    replace_non_alphanumeric_with_space (replace_non_alphanumeric_with_space s) =
      replace_non_alphanumeric_with_space s := by
  unfold replace_non_alphanumeric_with_space
  rw [List.map_map]
  exact List.map_congr_left (fun c _ => sanitizeChar_idem c)

/-- The index of the last dot of a string, as Python str.rfind of the
extension separator: none when there is no dot. -/
def rfindDot : Str → Option Nat
  | [] => none
  | c :: cs =>
    match rfindDot cs with
    | some i => some (i + 1)
    | none => if c = '.' then some 0 else none

/-- Embeds the root part of os.path.splitext for a bare file name (no
path separator): the name is cut at its last dot, except that a name
whose characters before that dot are all dots (a leading-dot name such
as .parquet) is returned whole. -/
def splitextRoot (p : Str) : Str :=
  match rfindDot p with
  | none => p
  | some d => if (p.take d).any (fun c => decide (c ≠ '.')) then p.take d else p

/-- Embeds the f.endswith test applied with the .parquet suffix
(dtale_utils.py line 90). -/
def endsWithParquet (f : Str) : Bool :=
  List.isSuffixOf ".parquet".data f

/-- Embeds os.path.join on two components under POSIX rules: an
absolute second component replaces the first, and otherwise the parts
are glued with a separator unless the first part is empty or already
ends in one. -/
def pathJoin (dir nm : Str) : Str :=
  if nm.head? = some '/' then nm
  else if dir = [] then nm
  else if dir.getLast? = some '/' then dir ++ nm
  else dir ++ '/' :: nm

/-- The part of a d-tale session handle that this program determines:
the file path handed to dtale.show_parquet and the display name of the
session. -/
structure DtaleSession where
  path : Str
  label : Str
deriving DecidableEq

/-- The session built for one qualifying extracted file name
(dtale_utils.py lines 95-103): the path joins the extraction directory
with the file name and the display name is the sanitized splitext
root. -/
def mkSession (extract_dir file_name : Str) : DtaleSession :=
  ⟨pathJoin extract_dir file_name,
   replace_non_alphanumeric_with_space (splitextRoot file_name)⟩

/-- Embeds the launch loop of zipped_parquet_to_dtale (lines 90-106):
the extracted entries are filtered to those ending in .parquet, and
each candidate is skipped when the symbol set is non-empty and does
not contain its splitext root, and otherwise contributes one session. -/
def zipped_parquet_to_dtale (extract_dir : Str) (listing : List Str)
    (symbols_to_include : Finset Str) : List DtaleSession :=
  let parquet_files := listing.filter endsWithParquet
  parquet_files.filterMap (fun file_name =>
    let symbol_name := splitextRoot file_name
    if 0 < symbols_to_include.card ∧ symbol_name ∉ symbols_to_include then
      none
    else
      some (mkSession extract_dir file_name))

/-- The guard of lines 98-99 as a predicate on the symbol name: a
candidate passes when the symbol set is empty or contains the name. -/
def passesFilter (symbols_to_include : Finset Str) (symbol_name : Str) : Bool :=
  if 0 < symbols_to_include.card ∧ symbol_name ∉ symbols_to_include
  then false else true

/-- The candidates that survive both the extension filter and the
symbol filter, in listing order. -/
def qualifyingFiles (symbols_to_include : Finset Str) (listing : List Str) :
    List Str :=
  (listing.filter endsWithParquet).filter
    (fun f => passesFilter symbols_to_include (splitextRoot f))

theorem filterMap_if_guard {α β : Type} (p : α → Prop) [DecidablePred p]
    (g : α → β) (l : List α) :
    (l.filterMap (fun a => if p a then none else some (g a))) =
      (l.filter (fun a => if p a then false else true)).map g := by
  induction l with
  | nil => rfl
  | cons a t ih =>
    by_cases h : p a
    · simp [List.filterMap_cons, List.filter_cons, h, ih]
    · simp [List.filterMap_cons, List.filter_cons, h, ih]

theorem zipped_eq_map_qualifying (extract_dir : Str) (listing : List Str)
    (symbols : Finset Str) :
    zipped_parquet_to_dtale extract_dir listing symbols =
      (qualifyingFiles symbols listing).map (mkSession extract_dir) := by
  unfold zipped_parquet_to_dtale qualifyingFiles passesFilter
  exact filterMap_if_guard
    (fun f => 0 < symbols.card ∧ splitextRoot f ∉ symbols)
    (mkSession extract_dir) (listing.filter endsWithParquet)

/-- C2: with an empty symbol set every .parquet candidate is launched;
with a non-empty set a candidate is launched exactly when its splitext
root is a member of the set, and non-members are skipped without a
session and without an error. -/
theorem C2_symbol_filter (extract_dir : Str) (listing : List Str)
    (symbols : Finset Str) :
    (symbols = ∅ →
      zipped_parquet_to_dtale extract_dir listing symbols =
        (listing.filter endsWithParquet).map (mkSession extract_dir)) ∧
    (symbols ≠ ∅ →
      zipped_parquet_to_dtale extract_dir listing symbols =
        ((listing.filter endsWithParquet).filter
            (fun f => decide (splitextRoot f ∈ symbols))).map
          (mkSession extract_dir)) := by
  constructor
  · intro h
    subst h
    rw [zipped_eq_map_qualifying]
    unfold qualifyingFiles passesFilter
    simp
  · intro h
    rw [zipped_eq_map_qualifying]
    unfold qualifyingFiles passesFilter
    have hc : 0 < symbols.card :=
      Finset.card_pos.mpr (Finset.nonempty_iff_ne_empty.mpr h)
    congr 1
    apply List.filter_congr
    intro f _
    by_cases hm : splitextRoot f ∈ symbols
    · simp [hm, hc]
    · simp [hm, hc]

theorem C2_symbol_filter_witness :
    (zipped_parquet_to_dtale "/t".data ["A.parquet".data] ∅ =
      (["A.parquet".data].filter endsWithParquet).map (mkSession "/t".data)) ∧
    (zipped_parquet_to_dtale "/t".data ["A.parquet".data, "B.parquet".data]
        {"A".data} =
      ((["A.parquet".data, "B.parquet".data].filter endsWithParquet).filter
          (fun f => decide (splitextRoot f ∈ ({"A".data} : Finset Str)))).map
        (mkSession "/t".data)) :=
  ⟨(C2_symbol_filter "/t".data ["A.parquet".data] ∅).1 rfl,
   (C2_symbol_filter "/t".data ["A.parquet".data, "B.parquet".data]
      {"A".data}).2 (by decide)⟩

/-- C3: the launcher returns exactly one session per qualifying
candidate, in candidate order; when zero candidates qualify it returns
the empty list and not an error; each session's path joins the
extraction directory with its own qualifying file and its display
label is the sanitized splitext root of that file. -/
theorem C3_session_sequence (extract_dir : Str) (listing : List Str)
    (symbols : Finset Str) :
    zipped_parquet_to_dtale extract_dir listing symbols =
      (qualifyingFiles symbols listing).map (fun f =>
        ⟨pathJoin extract_dir f,
         replace_non_alphanumeric_with_space (splitextRoot f)⟩) ∧
    (qualifyingFiles symbols listing = [] →
      zipped_parquet_to_dtale extract_dir listing symbols = []) := by
  constructor
  · rw [zipped_eq_map_qualifying]
    rfl
  · intro h
    rw [zipped_eq_map_qualifying, h]
    rfl

theorem C3_session_sequence_witness :
    zipped_parquet_to_dtale "/t".data ["C.csv".data] ∅ =
      (qualifyingFiles ∅ ["C.csv".data]).map (fun f =>
        ⟨pathJoin "/t".data f,
         replace_non_alphanumeric_with_space (splitextRoot f)⟩) ∧
    zipped_parquet_to_dtale "/t".data ["C.csv".data] ∅ = [] :=
  ⟨(C3_session_sequence "/t".data ["C.csv".data] ∅).1,
   (C3_session_sequence "/t".data ["C.csv".data] ∅).2 (by decide)⟩

/-- C7: candidate enumeration keeps exactly the extracted entries
ending in .parquet; for the listing A.parquet, B.parquet, C.csv with
an empty symbol set the candidates are exactly A.parquet and B.parquet
and the launcher produces exactly two sessions. -/
theorem C7_candidate_enumeration :
    (∀ (listing : List Str) (f : Str),
      f ∈ listing.filter endsWithParquet ↔
        f ∈ listing ∧ endsWithParquet f = true) ∧
    (["A.parquet".data, "B.parquet".data, "C.csv".data].filter endsWithParquet
      = ["A.parquet".data, "B.parquet".data]) ∧
    (∀ extract_dir : Str,
      (zipped_parquet_to_dtale extract_dir
        ["A.parquet".data, "B.parquet".data, "C.csv".data] ∅).length = 2) := by
  refine ⟨?_, by decide, ?_⟩
  · intro l f
    simp [List.mem_filter]
  · intro d
    rw [zipped_eq_map_qualifying, List.length_map]
    decide

/-- Archive entries are paths given as lists of name components; the
non-recursive os.listdir of the extraction directory sees only the
first component of each entry. -/
def listdir (entries : List (List Str)) : List Str :=
  (entries.filterMap List.head?).dedup

/-- C10: every launched session's file path is the extraction
directory, one separator, then a listing entry free of separators — a
direct child of the extraction directory; and an archive whose only
tabular file sits inside a subdirectory launches no session, because
the non-recursive listing shows only the subdirectory name. -/
theorem C10_direct_children :
    (∀ (extract_dir : Str) (listing : List Str) (symbols : Finset Str)
        (s : DtaleSession),
      (∀ n ∈ listing, ('/' : Char) ∉ n) →
      extract_dir ≠ [] →
      extract_dir.getLast? ≠ some '/' →
      s ∈ zipped_parquet_to_dtale extract_dir listing symbols →
      ∃ n ∈ listing, ('/' : Char) ∉ n ∧ s.path = extract_dir ++ '/' :: n) ∧
    (∀ (extract_dir : Str) (symbols : Finset Str),
      zipped_parquet_to_dtale extract_dir
        (listdir [["sub".data, "D.parquet".data]]) symbols = []) := by
  constructor
  · intro dir listing symbols s hsep hne hlast hmem
    rw [zipped_eq_map_qualifying] at hmem
    rcases List.mem_map.mp hmem with ⟨f, hf, rfl⟩
    have hfl : f ∈ listing := by
      have h1 := (List.mem_filter.mp hf).1
      exact (List.mem_filter.mp h1).1
    refine ⟨f, hfl, hsep f hfl, ?_⟩
    show pathJoin dir f = dir ++ '/' :: f
    unfold pathJoin
    have hhead : f.head? ≠ some '/' := by
      intro hcontra
      exact hsep f hfl (List.mem_of_mem_head? (Option.mem_def.mpr hcontra))
    simp [hhead, hne, hlast]
  · intro dir symbols
    rw [zipped_eq_map_qualifying]
    have h : qualifyingFiles symbols (listdir [["sub".data, "D.parquet".data]])
        = [] := by
      unfold qualifyingFiles
      have : (listdir [["sub".data, "D.parquet".data]]).filter endsWithParquet
          = [] := by decide
      rw [this]
      rfl
    rw [h]
    rfl

theorem C10_direct_children_witness :
    ∃ n ∈ ["A.parquet".data], ('/' : Char) ∉ n ∧
      (mkSession "/t".data "A.parquet".data).path = "/t".data ++ '/' :: n :=
  C10_direct_children.1 "/t".data ["A.parquet".data] ∅
    (mkSession "/t".data "A.parquet".data)
    (by decide) (by decide) (by decide) (by decide)

/-- The whitespace class of Python str.strip, the characters where
str.isspace is true: tab through carriage return (9-13), the
information separators 28-31, space (32), next line (133), no-break
space (160), Ogham space mark (5760), en quad through hair space
(8192-8202), line separator (8232), paragraph separator (8233), narrow
no-break space (8239), medium mathematical space (8287) and
ideographic space (12288). -/
def pyIsSpace (c : Char) : Bool :=
  let n := c.toNat
  (decide (9 ≤ n) && decide (n ≤ 13)) ||
  (decide (28 ≤ n) && decide (n ≤ 32)) ||
  decide (n = 133) || decide (n = 160) || decide (n = 5760) ||
  (decide (8192 ≤ n) && decide (n ≤ 8202)) ||
  decide (n = 8232) || decide (n = 8233) ||
  decide (n = 8239) || decide (n = 8287) || decide (n = 12288)

/-- Embeds Python str.strip with no argument: whitespace characters
are removed from both ends of the string. -/
def strip (s : Str) : Str :=
  ((s.dropWhile pyIsSpace).reverse.dropWhile pyIsSpace).reverse

/-- Embeds Python str.split applied with a comma separator: every
comma opens a new piece, empty pieces are kept, and the empty string
yields one empty piece. -/
def splitComma : Str → List Str
  | [] => [[]]
  | c :: cs =>
    match splitComma cs with
    | [] => [[]]
    | h :: t => if c = ',' then [] :: h :: t else (c :: h) :: t

/-- Embeds process_symbols (dtale_utils.py lines 32-35): a missing
value gives the empty set; otherwise the value is split at commas,
each piece is stripped, and the results are collected into a set. -/
def process_symbols (value : Option Str) : Finset Str :=
  match value with
  | none => ∅
  | some v => ((splitComma v).map strip).toFinset

/-- Rejoining pieces with commas, the inverse direction of
splitComma used to characterize it. -/
def joinComma : List Str → Str
  | [] => []
  | [p] => p
  | p :: q :: ps => p ++ ',' :: joinComma (q :: ps)

theorem splitComma_ne_nil (v : Str) : splitComma v ≠ [] := by
  cases v with
  | nil => simp [splitComma]
  | cons c cs =>
    unfold splitComma
    cases h : splitComma cs with
    | nil => simp
    | cons a t => by_cases hc : c = ',' <;> simp [hc]

theorem joinComma_cons_cons (c : Char) (p : Str) (ps : List Str) :
    joinComma ((c :: p) :: ps) = c :: joinComma (p :: ps) := by
  cases ps with
  | nil => rfl
  | cons q qs => rfl

theorem joinComma_splitComma (v : Str) : joinComma (splitComma v) = v := by
  induction v with
  | nil => rfl
  | cons c cs ih =>
    unfold splitComma
    cases h : splitComma cs with
    | nil => exact absurd h (splitComma_ne_nil cs)
    | cons a t =>
      rw [h] at ih
      by_cases hc : c = ','
      · subst hc
        simp only [if_pos rfl]
        show joinComma ([] :: a :: t) = ',' :: cs
        rw [show joinComma ([] :: a :: t) = [] ++ ',' :: joinComma (a :: t)
              from rfl]
        rw [ih]
        rfl
      · simp only [if_neg hc]
        rw [joinComma_cons_cons, ih]

theorem splitComma_no_comma (v : Str) :
    ∀ p ∈ splitComma v, (',' : Char) ∉ p := by
  induction v with
  | nil =>
    intro p hp
    simp [splitComma] at hp
    subst hp
    simp
  | cons c cs ih =>
    intro p hp
    unfold splitComma at hp
    cases h : splitComma cs with
    | nil => exact absurd h (splitComma_ne_nil cs)
    | cons a t =>
      rw [h] at hp
      have hp2 : p ∈ (if c = ',' then [] :: a :: t else (c :: a) :: t) := hp
      by_cases hc : c = ','
      · rw [if_pos hc] at hp2
        rcases List.mem_cons.mp hp2 with hp1 | hp1
        · subst hp1; simp
        · exact ih p (h ▸ hp1)
      · rw [if_neg hc] at hp2
        rcases List.mem_cons.mp hp2 with hp1 | hp1
        · subst hp1
          intro hmem
          rcases List.mem_cons.mp hmem with h1 | h1
          · exact hc h1.symm
          · exact ih a (h ▸ List.mem_cons_self a t) h1
        · exact ih p (h ▸ List.mem_cons_of_mem a hp1)

/-- C8 counterexample: the empty argument does not map to the empty
set: process_symbols applied to the empty string yields the singleton
set holding the empty string, because str.split keeps empty pieces. -/
theorem C8_counterexample :
    process_symbols (some []) ≠ (∅ : Finset Str) ∧
    process_symbols (some []) = {([] : Str)} := by
  decide

/-- C8 amended: an absent argument maps to the empty filter set; a
present argument maps to the set of its comma-separated pieces with
surrounding whitespace stripped, empty pieces kept (so the empty
argument maps to the singleton of the empty string): the pieces carry
no comma and rejoin with commas to the original argument, and a string
belongs to the set exactly when it is the stripped form of one of the
pieces. -/
theorem C8_process_symbols_amended :
    process_symbols none = ∅ ∧
    process_symbols (some []) = {([] : Str)} ∧
    (∀ v : Str, joinComma (splitComma v) = v) ∧
    (∀ v : Str, ∀ p ∈ splitComma v, (',' : Char) ∉ p) ∧
    (∀ (v x : Str),
      x ∈ process_symbols (some v) ↔ ∃ p ∈ splitComma v, strip p = x) := by
  refine ⟨rfl, by decide, joinComma_splitComma, splitComma_no_comma, ?_⟩
  intro v x
  simp [process_symbols, List.mem_toFinset, List.mem_map]

theorem C8_process_symbols_amended_witness :
    process_symbols none = (∅ : Finset Str) ∧
    joinComma (splitComma " a ,b".data) = " a ,b".data ∧
    (',' : Char) ∉ " a ".data ∧
    "a".data ∈ process_symbols (some " a ,b".data) :=
  ⟨C8_process_symbols_amended.1,
   C8_process_symbols_amended.2.2.1 " a ,b".data,
   C8_process_symbols_amended.2.2.2.1 " a ,b".data " a ".data (by decide),
   (C8_process_symbols_amended.2.2.2.2 " a ,b".data "a".data).mpr
     ⟨" a ".data, by decide, by decide⟩⟩

/-- The module-level DTYPE_SESSIONS list (dtale_utils.py line 14),
empty at import and never rebound: the assignment inside main has no
global declaration, so it binds a function-local name and leaves this
list untouched. -/
def DTYPE_SESSIONS : List DtaleSession := []

/-- Embeds the binding state of main after line 47: the pair of the
module-level DTYPE_SESSIONS list and main's local DTYPE_SESSIONS list,
the latter holding the launched sessions. -/
def main_after_launch (launched : List DtaleSession) :
    List DtaleSession × List DtaleSession :=
  (DTYPE_SESSIONS, launched)

/-- Embeds signal_handler (dtale_utils.py lines 16-22) applied to the
module-level session list it reads: the pair of the kill calls it
issues, in order, and the exit status it passes to exit. -/
def signal_handler (globalSessions : List DtaleSession) :
    List DtaleSession × Nat :=
  (globalSessions, 0)

/-- C4 behaviour at the failing input: on interrupt the handler reads
the module-level DTYPE_SESSIONS, which is still empty because main's
assignment bound a local name, so for every list of launched sessions
the kill calls are the empty list — no created handle is terminated —
while the exit status is 0. -/
theorem C4_interrupt_kills_nothing (launched : List DtaleSession) :
    signal_handler (main_after_launch launched).1 = ([], 0) :=
  rfl

/-- Embeds line 49, DTYPE_SESSIONS[-1].open_browser(): Python indexing
with -1 takes the last element and raises IndexError on an empty
list. -/
def open_browser_step (sessions : List DtaleSession) :
    Except String DtaleSession :=
  match sessions.getLast? with
  | some d => Except.ok d
  | none => Except.error "IndexError"

/-- C5 behaviour at the failing input: with zero qualifying files the
launcher returns the empty list and the orchestrator's browser step
evaluates DTYPE_SESSIONS[-1], which raises IndexError on the empty
sequence instead of skipping the browser. -/
theorem C5_empty_sessions_index_error (extract_dir : Str) :
    zipped_parquet_to_dtale extract_dir ["C.csv".data] ∅ = [] ∧
    open_browser_step [] = Except.error "IndexError" := by
  constructor
  · rw [zipped_eq_map_qualifying]
    have h : qualifyingFiles ∅ ["C.csv".data] = [] := by decide
    rw [h]
    rfl
  · rfl

/-- A path lies in the temporary directory's subtree: it is the
directory itself or has the directory plus a separator as a prefix. -/
def isUnder (dir p : Str) : Bool :=
  decide (p = dir) || List.isPrefixOf (dir ++ ['/']) p

/-- Deletion of a directory tree from the filesystem, given as the
list of existing paths. -/
def removeUnder (dir : Str) (fs : List Str) : List Str :=
  fs.filter (fun p => !(isUnder dir p))

/-- Embeds the with tempfile.TemporaryDirectory() statement (line 84)
per the context-manager protocol: the directory is created, the body
runs, and on every exit path — a normal result as well as a raised
exception — the directory and everything under it are removed. -/
def withTemporaryDirectory {α : Type} (fs : List Str) (tmp : Str)
    (body : Str → List Str → Except String α × List Str) :
    Except String α × List Str :=
  let res := body tmp (tmp :: fs)
  (res.1, removeUnder tmp res.2)

/-- The body of the extraction-and-launch scope (lines 86-103) as a
filesystem transformer: extraction either fails (bad archive or write
error) or materializes the extracted names under the extraction
directory; the launch loop then either raises (a session start
failure, when launch_fails is set) or returns the sessions. -/
def run_body (extractionResult : Except String (List Str))
    (launch_fails : Bool) (symbols : Finset Str)
    (extract_dir : Str) (fs1 : List Str) :
    Except String (List DtaleSession) × List Str :=
  match extractionResult with
  | Except.error e => (Except.error e, fs1)
  | Except.ok names =>
    let fs2 := names.map (fun n => pathJoin extract_dir n) ++ fs1
    ((if launch_fails then Except.error ("SessionStartError")
      else Except.ok (zipped_parquet_to_dtale extract_dir names symbols)),
     fs2)

/-- Embeds zipped_parquet_to_dtale's whole scope (lines 84-106): the
body runs inside the temporary-directory context manager. -/
def zipped_parquet_to_dtale_run (fs : List Str) (tmp : Str)
    (extractionResult : Except String (List Str)) (launch_fails : Bool)
    (symbols : Finset Str) :
    Except String (List DtaleSession) × List Str :=
  withTemporaryDirectory fs tmp (run_body extractionResult launch_fails symbols)

theorem mem_removeUnder (dir : Str) (fs : List Str) (p : Str)
    (h : p ∈ removeUnder dir fs) : isUnder dir p = false := by
  have h2 := (List.mem_filter.mp h).2
  simpa using h2

theorem isPrefixOf_append_cons (l : Str) (x : Char) (r : Str) :
    List.isPrefixOf (l ++ [x]) (l ++ x :: r) = true := by
  induction l with
  | nil => simp [List.isPrefixOf]
  | cons a t ih => simp [List.isPrefixOf, ih]

theorem isUnder_pathJoin (tmp n : Str) (h1 : tmp ≠ [])
    (h2 : tmp.getLast? ≠ some '/') (h3 : n.head? ≠ some '/') :
    isUnder tmp (pathJoin tmp n) = true := by
  unfold pathJoin isUnder
  rw [if_neg h3, if_neg h1, if_neg h2]
  have h4 := isPrefixOf_append_cons tmp '/' n
  simp [h4]

theorem removeUnder_restores (tmp : Str) (fs : List Str)
    (hfs : ∀ p ∈ fs, isUnder tmp p = false) :
    removeUnder tmp (tmp :: fs) = fs := by
  unfold removeUnder
  rw [List.filter_cons]
  have htmp : isUnder tmp tmp = true := by
    unfold isUnder
    simp
  rw [htmp]
  simp only [Bool.not_true, if_neg (by simp : ¬(false = true))]
  apply List.filter_eq_self.mpr
  intro p hp
  simp [hfs p hp]

/-- C6: on every exit path of the extraction-and-launch scope — normal
completion, a failed extraction, or a failed session launch — no path
of the resulting filesystem is the temporary directory or lies under
it; and when the directory name is fresh, the scope restores the
filesystem exactly, so nothing else is left behind. -/
theorem C6_tempdir_scope (fs : List Str) (tmp : Str)
    (extractionResult : Except String (List Str)) (launch_fails : Bool)
    (symbols : Finset Str) :
    (∀ p ∈ (zipped_parquet_to_dtale_run fs tmp extractionResult
        launch_fails symbols).2, isUnder tmp p = false) ∧
    (∀ e, extractionResult = Except.error e →
      (∀ p ∈ fs, isUnder tmp p = false) →
      (zipped_parquet_to_dtale_run fs tmp extractionResult
        launch_fails symbols).2 = fs) ∧
    (∀ names, extractionResult = Except.ok names →
      tmp ≠ [] → tmp.getLast? ≠ some '/' →
      (∀ n ∈ names, n.head? ≠ some '/') →
      (∀ p ∈ fs, isUnder tmp p = false) →
      (zipped_parquet_to_dtale_run fs tmp extractionResult
        launch_fails symbols).2 = fs) := by
  have hsnd : (zipped_parquet_to_dtale_run fs tmp extractionResult
      launch_fails symbols).2 =
      removeUnder tmp
        (run_body extractionResult launch_fails symbols tmp (tmp :: fs)).2 :=
    rfl
  refine ⟨?_, ?_, ?_⟩
  · intro p hp
    rw [hsnd] at hp
    exact mem_removeUnder tmp _ p hp
  · intro e he hfs
    subst he
    rw [hsnd]
    show removeUnder tmp (tmp :: fs) = fs
    exact removeUnder_restores tmp fs hfs
  · intro names hn hne hlast hnames hfs
    subst hn
    rw [hsnd]
    have hbody : (run_body (Except.ok names) launch_fails symbols tmp
        (tmp :: fs)).2 =
        names.map (fun n => pathJoin tmp n) ++ tmp :: fs := by
      unfold run_body
      cases launch_fails <;> rfl
    rw [hbody]
    unfold removeUnder
    rw [List.filter_append]
    have hmapped : (names.map (fun n => pathJoin tmp n)).filter
        (fun p => !(isUnder tmp p)) = [] := by
      rw [List.filter_eq_nil_iff]
      intro a ha
      rcases List.mem_map.mp ha with ⟨n, hn2, rfl⟩
      simp [isUnder_pathJoin tmp n hne hlast (hnames n hn2)]
    rw [hmapped]
    simpa [removeUnder] using removeUnder_restores tmp fs hfs

theorem C6_tempdir_scope_witness :
    ((zipped_parquet_to_dtale_run ["/e".data] "/tmp/x".data
        (Except.error ("ArchiveError")) false ∅).2 = ["/e".data]) ∧
    ((zipped_parquet_to_dtale_run ["/e".data] "/tmp/x".data
        (Except.ok ["A.parquet".data]) true ∅).2 = ["/e".data]) :=
  ⟨(C6_tempdir_scope ["/e".data] "/tmp/x".data
      (Except.error ("ArchiveError")) false ∅).2.1 "ArchiveError" rfl
      (by decide),
   (C6_tempdir_scope ["/e".data] "/tmp/x".data
      (Except.ok ["A.parquet".data]) true ∅).2.2 ["A.parquet".data] rfl
      (by decide) (by decide) (by decide) (by decide)⟩
